import Mathlib

/-!
Verification of the substitution engine of update_translations.py.

The script reads one text file, applies an ordered sequence of
(regex pattern, replacement template) rules with re.sub, and writes the
result back.  We embed the rule application loop (lines 190-191 of the
script) over a model of the Python re dialect restricted to the
constructs the rule set uses: literal characters, escaped
metacharacters, the dot, the whitespace class, the star, plus and
question quantifiers, and capture groups.  Replacement templates follow
the documented re.sub template rules: numeric group references, the
known letter escapes such as backslash-n, errors on unknown letter
escapes, and all other escaped characters left alone with the backslash
retained.
-/

set_option maxRecDepth 10000

/-- Errors of one engine run, mirroring the exceptions re.sub can raise:
a pattern that does not compile, a template referencing a capture group
the pattern does not define, and a template with an invalid escape. -/
inductive RunError where
  | malformedPattern
  | unresolvedReference
  | malformedTemplate
deriving DecidableEq, Repr

/-- Abstract syntax of the modelled regex dialect. -/
inductive Rx where
  | eps
  | any
  | ch (c : Char)
  | ws
  | seq (a b : Rx)
  | opt (a : Rx)
  | star (a : Rx)
  | grp (n : Nat) (a : Rx)
deriving DecidableEq, Repr

/-- Captured group texts recorded during one match attempt. -/
def Caps : Type := List (Nat × List Char)

/-- Whitespace characters of the re dialect, restricted to ASCII. -/
def isPySpace (c : Char) : Bool :=
  c = ' ' || c = Char.ofNat 9 || c = Char.ofNat 10 || c = Char.ofNat 13 ||
  c = Char.ofNat 11 || c = Char.ofNat 12

/-- Size of a regex term, used to compute a sufficient matcher fuel. -/
def rxSize : Rx → Nat
  | .eps => 1
  | .any => 1
  | .ch _ => 1
  | .ws => 1
  | .seq a b => rxSize a + rxSize b + 1
  | .opt a => rxSize a + 1
  | .star a => rxSize a + 2
  | .grp _ a => rxSize a + 1

/-- Backtracking matcher.  Given a regex and a text, it returns the list
of all ways the regex can match a prefix of the text, each given by the
remaining suffix and the captures, in the priority order of the Python
backtracking engine: greedy quantifiers try longer alternatives first.
Star iterations that consume nothing are dropped, matching the empty
loop protection of the re engine.  The fuel only bounds recursion and is
chosen large enough by the wrapper below. -/
def runR : Nat → Rx → List Char → Caps → List (List Char × Caps)
  | 0, _, _, _ => []
  | fuel + 1, rx, s, k =>
    match rx with
    | .eps => [(s, k)]
    | .any =>
      match s with
      | [] => []
      | c :: cs => if c = Char.ofNat 10 then [] else [(cs, k)]
    | .ch a =>
      match s with
      | [] => []
      | c :: cs => if c = a then [(cs, k)] else []
    | .ws =>
      match s with
      | [] => []
      | c :: cs => if isPySpace c then [(cs, k)] else []
    | .seq a b =>
      (runR fuel a s k).flatMap (fun p => runR fuel b p.1 p.2)
    | .opt a => runR fuel a s k ++ [(s, k)]
    | .star a =>
      ((runR fuel a s k).filter (fun p => p.1.length < s.length)).flatMap
        (fun p => runR fuel (.star a) p.1 p.2) ++ [(s, k)]
    | .grp n a =>
      (runR fuel a s k).map
        (fun p => (p.1, (n, s.take (s.length - p.1.length)) :: p.2))

/-- Matcher entry point with fuel sufficient for the nesting the
restricted dialect can produce. -/
def Rx.run (rx : Rx) (s : List Char) (k : Caps) : List (List Char × Caps) :=
  runR ((rxSize rx + 1) * (s.length + 1)) rx s k

/-- Quantifier characters of the dialect. -/
def quantChar (c : Char) : Bool := c = '*' || c = '+' || c = '?'

/-- Metacharacters the parser refuses outside escapes because their
regex meaning is not part of the modelled dialect. -/
def unsupChar (c : Char) : Bool :=
  c = '^' || c = '$' || c = '|' || c = '[' || c = ']' ||
  c = Char.ofNat 123 || c = Char.ofNat 125

/-- Regex metacharacters, as the specification lists them. -/
def isMeta (c : Char) : Bool :=
  c = '.' || (c = '*' || (c = '+' || (c = '?' || (c = '(' || (c = ')' ||
  (c = '[' || (c = ']' || (c = Char.ofNat 123 || (c = Char.ofNat 125 ||
  (c = '^' || (c = '$' || (c = '|' || c = Char.ofNat 92))))))))))))

/-- Escaped atoms in patterns: the whitespace class, the control
character escapes, and any escaped non alphanumeric character standing
for itself.  Escaped letters outside the modelled set fail to compile,
as unknown letter escapes do in the re engine. -/
def patEscAtom (c : Char) : Except RunError Rx :=
  if c = 's' then .ok .ws
  else if c = 'n' then .ok (.ch (Char.ofNat 10))
  else if c = 't' then .ok (.ch (Char.ofNat 9))
  else if c = 'r' then .ok (.ch (Char.ofNat 13))
  else if c.isAlpha || c.isDigit then .error .malformedPattern
  else .ok (.ch c)

/-- One unquantified atom that is not a group: an escape, the dot, or a
plain character.  A bare quantifier has nothing to repeat and the
unsupported metacharacters are refused. -/
def pAtom (c0 : Char) (rest0 : List Char) : Except RunError (Rx × List Char) :=
  if c0 = Char.ofNat 92 then
    match rest0 with
    | [] => .error .malformedPattern
    | c :: r1 =>
      match patEscAtom c with
      | .error e => .error e
      | .ok a => .ok (a, r1)
  else if quantChar c0 then .error .malformedPattern
  else if unsupChar c0 then .error .malformedPattern
  else if c0 = '.' then .ok (.any, rest0)
  else .ok (.ch c0, rest0)

/-- Splits a leading quantifier character off the input, if present. -/
def splitQuant : List Char → Option Char × List Char
  | [] => (none, [])
  | c :: t => if quantChar c then (some c, t) else (none, c :: t)

/-- Wraps an atom in the regex denoted by a quantifier character. -/
def quantify (q : Char) (a : Rx) : Rx :=
  if q = '*' then .star a
  else if q = '+' then .seq a (.star a)
  else .opt a

/-- Recursive descent parser for a pattern sequence.  It stops at a
closing parenthesis without consuming it, numbers capture groups by
opening order, and rejects quantified groups, which the modelled
dialect excludes.  The fuel decreases on every step and the entry point
below supplies enough for any input. -/
def pSeq : Nat → Nat → List Char → Except RunError (Rx × Nat × List Char)
  | 0, _, _ => .error .malformedPattern
  | _ + 1, g, [] => .ok (.eps, g, [])
  | fuel + 1, g, c0 :: rest0 =>
    if c0 = ')' then .ok (.eps, g, c0 :: rest0)
    else if c0 = '(' then
      match pSeq fuel (g + 1) rest0 with
      | .error e => .error e
      | .ok (inner, g1, r1) =>
        match r1 with
        | ')' :: r2 =>
          match splitQuant r2 with
          | (some _, _) => .error .malformedPattern
          | (none, _) =>
            match pSeq fuel g1 r2 with
            | .error e => .error e
            | .ok (b, g2, r3) => .ok (.seq (.grp (g + 1) inner) b, g2, r3)
        | _ => .error .malformedPattern
    else
      match pAtom c0 rest0 with
      | .error e => .error e
      | .ok (a, r1) =>
        match splitQuant r1 with
        | (some q, r2) =>
          match pSeq fuel g r2 with
          | .error e => .error e
          | .ok (b, g2, r3) => .ok (.seq (quantify q a) b, g2, r3)
        | (none, _) =>
          match pSeq fuel g r1 with
          | .error e => .error e
          | .ok (b, g2, r3) => .ok (.seq a b, g2, r3)

/-- Compiles a pattern: parses the whole input as one sequence and
returns the regex together with its number of capture groups.  An
unconsumed closing parenthesis is unbalanced and fails. -/
def pCompile (p : List Char) : Except RunError (Rx × Nat) :=
  match pSeq (p.length + 1) 0 p with
  | .error e => .error e
  | .ok (rx, g, []) => .ok (rx, g)
  | .ok _ => .error .malformedPattern

/-- One piece of a parsed replacement template: a literal character or
a capture group reference. -/
inductive TItem where
  | lit (c : Char)
  | grp (n : Nat)
deriving DecidableEq, Repr

/-- Parses a replacement template under the re.sub template rules, with
the number of capture groups of the compiled pattern at hand: a
backslash before one or two digits is a group reference checked against
that number, backslash zero is the null character, the known letter
escapes denote control characters, a double backslash denotes one
backslash, any other escaped letter is an error, and any other escaped
character is left alone with its backslash retained.  The fuel
decreases once per step while each step consumes at least one input
character, so the entry point below never exhausts it. -/
def parseTemplateAux (g : Nat) : Nat → List Char → Except RunError (List TItem)
  | 0, _ => .error .malformedTemplate
  | _ + 1, [] => .ok []
  | fuel + 1, c0 :: rest0 =>
    if c0 = Char.ofNat 92 then
      match rest0 with
      | [] => .error .malformedTemplate
      | c :: rest =>
        if c = '0' then
          (fun l => TItem.lit (Char.ofNat 0) :: l) <$> parseTemplateAux g fuel rest
        else if c.isDigit then
          match rest with
          | d :: rest2 =>
            if d.isDigit then
              if (c.toNat - 48) * 10 + (d.toNat - 48) ≤ g then
                (fun l => TItem.grp ((c.toNat - 48) * 10 + (d.toNat - 48)) :: l) <$>
                  parseTemplateAux g fuel rest2
              else .error .unresolvedReference
            else
              if c.toNat - 48 ≤ g then
                (fun l => TItem.grp (c.toNat - 48) :: l) <$> parseTemplateAux g fuel rest
              else .error .unresolvedReference
          | [] =>
            if c.toNat - 48 ≤ g then .ok [TItem.grp (c.toNat - 48)]
            else .error .unresolvedReference
        else if c = Char.ofNat 92 then
          (fun l => TItem.lit (Char.ofNat 92) :: l) <$> parseTemplateAux g fuel rest
        else if c = 'n' then
          (fun l => TItem.lit (Char.ofNat 10) :: l) <$> parseTemplateAux g fuel rest
        else if c = 't' then
          (fun l => TItem.lit (Char.ofNat 9) :: l) <$> parseTemplateAux g fuel rest
        else if c = 'r' then
          (fun l => TItem.lit (Char.ofNat 13) :: l) <$> parseTemplateAux g fuel rest
        else if c = 'a' then
          (fun l => TItem.lit (Char.ofNat 7) :: l) <$> parseTemplateAux g fuel rest
        else if c = 'b' then
          (fun l => TItem.lit (Char.ofNat 8) :: l) <$> parseTemplateAux g fuel rest
        else if c = 'f' then
          (fun l => TItem.lit (Char.ofNat 12) :: l) <$> parseTemplateAux g fuel rest
        else if c = 'v' then
          (fun l => TItem.lit (Char.ofNat 11) :: l) <$> parseTemplateAux g fuel rest
        else if c.isAlpha then .error .malformedTemplate
        else
          (fun l => TItem.lit (Char.ofNat 92) :: TItem.lit c :: l) <$>
            parseTemplateAux g fuel rest
    else (fun l => TItem.lit c0 :: l) <$> parseTemplateAux g fuel rest0

/-- Template parser entry point with sufficient fuel. -/
def parseTemplate (g : Nat) (t : List Char) : Except RunError (List TItem) :=
  parseTemplateAux g (t.length + 1) t

/-- Looks up the text captured by a group during one match. -/
def lookupCap (n : Nat) : Caps → Option (List Char)
  | [] => none
  | (m, v) :: t => if m = n then some v else lookupCap n t

/-- Instantiates a parsed template at one match, substituting the
captured texts for the group references. -/
def substT (items : List TItem) (k : Caps) : List Char :=
  items.flatMap fun it =>
    match it with
    | .lit c => [c]
    | .grp n => (lookupCap n k).getD []

/-- One rule of the rule set, as the script stores it: the raw pattern
string and the raw replacement string. -/
structure Rule where
  pattern : List Char
  template : List Char
deriving DecidableEq, Repr

/-- Compiles one rule: its pattern, then its template checked against
the number of capture groups of the pattern. -/
def compileRule (r : Rule) : Except RunError (Rx × List TItem) :=
  match pCompile r.pattern with
  | .error e => .error e
  | .ok (rx, g) =>
    match parseTemplate g r.template with
    | .error e => .error e
    | .ok items => .ok (rx, items)

/-- Replacement scan of re.sub: walk the text left to right, replace
every non overlapping match by the instantiated template, count the
replacements, and after an empty match advance one character.  The fuel
decreases at every step and the wrapper supplies one more unit than the
text length, which the scan can never exhaust. -/
def subnAux (rx : Rx) (items : List TItem) : Nat → List Char → List Char × Nat
  | 0, s => (s, 0)
  | fuel + 1, s =>
    match Rx.run rx s [] with
    | [] =>
      match s with
      | [] => ([], 0)
      | c :: cs =>
        match subnAux rx items fuel cs with
        | (out, n) => (c :: out, n)
    | p :: _ =>
      if p.1.length < s.length then
        match subnAux rx items fuel p.1 with
        | (out, n) => (substT items p.2 ++ out, n + 1)
      else
        match s with
        | [] => (substT items p.2, 1)
        | c :: cs =>
          match subnAux rx items fuel cs with
          | (out, n) => (substT items p.2 ++ c :: out, n + 1)

/-- The transformed text and the replacement count of one re.sub call,
as in content = re.sub(pattern, replacement, content). -/
def subn (rx : Rx) (items : List TItem) (s : List Char) : List Char × Nat :=
  subnAux rx items (s.length + 1) s

/-- Modelled from the spec: the Application Report.  The loop of the
script, for pattern, replacement in replacements.items() with
content = re.sub(pattern, replacement, content), applies the rules in
listed order, each on the text produced by the earlier ones, and the
script discards the per rule replacement counts; the specification has
the engine return them, so this embedding of the loop returns the list
of per rule counts alongside the final text.  A rule that fails to
compile aborts the run with no text returned, as the propagated
exception does before the script reaches its file write. -/
def applyRules : List Rule → List Char → Except RunError (List Char × List Nat)
  | [], s => .ok (s, [])
  | r :: rs, s =>
    match compileRule r with
    | .error e => .error e
    | .ok (rx, items) =>
      match subn rx items s with
      | (s1, n) =>
        match applyRules rs s1 with
        | .error e => .error e
        | .ok (out, ns) => .ok (out, n :: ns)

/-- A backslash followed by a single quote, the two character sequence
the raw replacement strings of the script contain. -/
def bsq : List Char := [Char.ofNat 92, Char.ofNat 39]

/-- A single quote character. -/
def sqc : List Char := [Char.ofNat 39]

/-- The matcher of the rule at lines 20 to 21 of the script. -/
def capacityPattern : List Char := "<FormLabel>Capacity</FormLabel>".data

/-- The replacement string of the rule at lines 20 to 21 of the script,
with the backslash before each quote that the raw Python string
literally contains. -/
def capacityTemplate : List Char :=
  "<FormLabel>\x7bt(".data ++ bsq ++ "propertyForm.capacity".data ++ bsq ++
    ")\x7d</FormLabel>".data

/-- The output the specification expects for concrete scenario 1, with
plain quotes and no backslashes. -/
def capacityClaimed : List Char :=
  "<FormLabel>\x7bt(".data ++ sqc ++ "propertyForm.capacity".data ++ sqc ++
    ")\x7d</FormLabel>".data

/-- The rule at lines 20 to 21 of the script. -/
def capacityRule : Rule := ⟨capacityPattern, capacityTemplate⟩

/-- The matcher of the rule at lines 53 to 54 of the script. -/
def addUnitPattern : List Char := "Add Unit\\s*</Button>".data

/-- The replacement string of the rule at lines 53 to 54 of the script:
it contains the two character sequences backslash quote and backslash n
followed by twenty two spaces and the closing tag. -/
def addUnitTemplate : List Char :=
  "\x7bt(".data ++ bsq ++ "propertyForm.addUnit".data ++ bsq ++
    ")\x7d\\n                      </Button>".data

/-- The rule at lines 53 to 54 of the script. -/
def addUnitRule : Rule := ⟨addUnitPattern, addUnitTemplate⟩

/-- The text the rule at lines 53 to 54 substitutes for each match: the
backslash n of the template has become a real newline while the
backslash before each quote is retained. -/
def addUnitReplacement : List Char :=
  "\x7bt(".data ++ bsq ++ "propertyForm.addUnit".data ++ bsq ++
    ")\x7d\n                      </Button>".data

/-- A source text containing Add Unit followed by a newline and a
closing Button tag at two places. -/
def addUnitSource : List Char :=
  "<Button>\nAdd Unit\n</Button>\n<Button>\nAdd Unit\n</Button>".data

/-- Rule whose match consumes the region a later rule targets. -/
def ruleA : Rule := ⟨("abc".data), ("X".data)⟩

/-- Rule targeting a strict substring of the match of ruleA. -/
def ruleB : Rule := ⟨("b".data), ("Y".data)⟩

/-- Rule whose pattern does not match its replacement string, yet whose
application can create a fresh match at the boundary with the
surrounding text. -/
def abRule : Rule := ⟨("ab".data), ("b".data)⟩

/-- The compiled matcher of abRule. -/
def abRx : Rx := Rx.seq (Rx.ch 'a') (Rx.seq (Rx.ch 'b') Rx.eps)

/-- The compiled template of abRule. -/
def abItems : List TItem := [TItem.lit 'b']

/-- Rule whose pattern compiles and whose template references no capture
group at all, but contains the invalid escape backslash e. -/
def badEscRule : Rule := ⟨("a".data), ("\\e".data)⟩

/-- Rule used to witness success of a compiling rule set. -/
def okRule : Rule := ⟨("a".data), ("b".data)⟩

/-- C1: applying the rule whose matcher is the literal FormLabel
Capacity text to that same source text replaces it once, but the text
substituted is the raw template with the backslash before each quote
retained, as the re.sub template rules prescribe, and therefore differs
from the backslash free output the claim states.  The first conjunct
evaluates the embedded loop at the failing input; the second separates
the actual output from the claimed one. -/
theorem capacity_rule_actual_output :
    applyRules [capacityRule] capacityPattern = .ok (capacityTemplate, [1])
    ∧ capacityTemplate ≠ capacityClaimed :=
  ⟨rfl, by decide⟩

/-- C3: rules apply in listed order on the text earlier rules produced:
with ruleA consuming the region ruleB targets, the list with ruleA first
reports one match for ruleA and zero for ruleB, while the reversed list
produces a different final text. -/
theorem ordering_scenario :
    applyRules [ruleA, ruleB] ("abc".data) = .ok (("X".data), [1, 0])
    ∧ applyRules [ruleB, ruleA] ("abc".data) = .ok (("aYc".data), [1, 0])
    ∧ ("X".data : List Char) ≠ "aYc".data :=
  ⟨rfl, rfl, by decide⟩

/-- C7: an empty rule set returns the source text unchanged together
with an empty report. -/
theorem empty_rule_set_identity (s : List Char) :
    applyRules [] s = .ok (s, []) := rfl

/-- C8: with the whitespace tolerant Add Unit rule of the script and a
source containing the Add Unit text before a closing Button tag at two
places, both occurrences are replaced with the identical replacement
text and the report records two matches for the rule. -/
theorem add_unit_two_occurrences :
    applyRules [addUnitRule] addUnitSource =
      .ok (("<Button>\n".data ++ addUnitReplacement ++ "\n<Button>\n".data ++
        addUnitReplacement), [2]) := rfl

/-- C9: replacement templates go through the re.sub template escape
rules rather than being inserted verbatim: after a backslash, the letter
n is emitted as one newline character while a quote is emitted with the
backslash retained, so the substituted text can differ from the
replacement string as written, as the Add Unit template of the script
does. -/
theorem template_escape_rules :
    (∀ (g fuel : Nat) (rest : List Char),
      parseTemplateAux g (fuel + 1) (Char.ofNat 92 :: 'n' :: rest) =
        (fun l => TItem.lit (Char.ofNat 10) :: l) <$> parseTemplateAux g fuel rest)
    ∧ (∀ (g fuel : Nat) (rest : List Char),
      parseTemplateAux g (fuel + 1) (Char.ofNat 92 :: Char.ofNat 39 :: rest) =
        (fun l => TItem.lit (Char.ofNat 92) :: TItem.lit (Char.ofNat 39) :: l) <$>
          parseTemplateAux g fuel rest)
    ∧ substT ((parseTemplate 0 addUnitTemplate).toOption.getD []) [] ≠
        addUnitTemplate :=
  ⟨fun _ _ _ => rfl, fun _ _ _ => rfl, by decide⟩

/-- C6 counterexample: for the rule replacing ab by b, the pattern does
not match the replacement output text b, yet applying the rule set to
aab yields ab once and b after a second application, whose report is one
rather than zero: the replacement creates a fresh match at the boundary
with the untouched text, so the stated hypothesis does not give
idempotence. -/
theorem idempotence_counterexample :
    compileRule abRule = .ok (abRx, abItems)
    ∧ (subn abRx abItems ("b".data)).2 = 0
    ∧ applyRules [abRule] ("aab".data) = .ok (("ab".data), [1])
    ∧ applyRules [abRule] ("ab".data) = .ok (("b".data), [1])
    ∧ ("ab".data : List Char) ≠ "b".data
    ∧ ([1] : List Nat) ≠ [0] :=
  ⟨rfl, rfl, rfl, rfl, by decide, by decide⟩

/-- C5 counterexample: the rule with pattern a and template backslash e
has a compiling matcher and a template referencing no capture group, yet
the run fails, because the template itself is rejected by the escape
rules; so failure is not confined to the two conditions the claim
lists. -/
theorem bad_template_escape_counterexample :
    pCompile badEscRule.pattern = .ok (Rx.seq (Rx.ch 'a') Rx.eps, 0)
    ∧ compileRule badEscRule = .error .malformedTemplate
    ∧ applyRules [badEscRule] ("a".data) = .error .malformedTemplate
    ∧ ¬ ∃ res, applyRules [badEscRule] ("a".data) = .ok res :=
  ⟨rfl, rfl, rfl, by
    rintro ⟨res, h⟩
    rw [show applyRules [badEscRule] ("a".data) =
      Except.error RunError.malformedTemplate from rfl] at h
    exact Except.noConfusion h⟩

/-- C10: the replacement pass is a pure function of the rule set and the
source text: runs on equal inputs return equal outputs, the embedding
threading each intermediate text as a new value exactly as the loop of
the script rebinds its content variable. -/
theorem engine_deterministic (rules1 rules2 : List Rule) (s1 s2 : List Char)
    (h1 : rules1 = rules2) (h2 : s1 = s2) :
    applyRules rules1 s1 = applyRules rules2 s2 := by
  rw [h1, h2]

theorem engine_deterministic_witness :
    applyRules [capacityRule] capacityPattern =
      applyRules [capacityRule] capacityPattern :=
  engine_deterministic [capacityRule] [capacityRule] capacityPattern
    capacityPattern rfl rfl

/-- C2: on every successful run the report has exactly one entry per
rule, a zero count being an entry like any other. -/
theorem report_one_entry_per_rule (rules : List Rule) :
    ∀ (s out : List Char) (rep : List Nat),
      applyRules rules s = Except.ok (out, rep) → rep.length = rules.length := by
  induction rules with
  | nil =>
    intro s out rep h
    simp only [applyRules, Except.ok.injEq, Prod.mk.injEq] at h
    rcases h with ⟨rfl, rfl⟩
    rfl
  | cons r rs ih =>
    intro s out rep h
    rcases hc : compileRule r with e | ⟨rx, items⟩
    · simp only [applyRules, hc] at h
      exact Except.noConfusion h
    · rcases hs : subn rx items s with ⟨s1, n⟩
      rcases ha : applyRules rs s1 with e2 | ⟨out2, ns⟩
      · simp only [applyRules, hc, hs, ha] at h
        exact Except.noConfusion h
      · simp only [applyRules, hc, hs, ha, Except.ok.injEq, Prod.mk.injEq] at h
        rcases h with ⟨rfl, rfl⟩
        simp [ih s1 out2 ns ha]

theorem report_one_entry_per_rule_witness :
    ([0] : List Nat).length = [ruleB].length :=
  report_one_entry_per_rule [ruleB] ("a".data) ("a".data) [0] rfl

/-- Helper: a scan that performed zero replacements returned its input
text unchanged. -/
theorem subnAux_zero (rx : Rx) (items : List TItem) :
    ∀ (fuel : Nat) (s out : List Char),
      subnAux rx items fuel s = (out, 0) → out = s := by
  intro fuel
  induction fuel with
  | zero =>
    intro s out h
    simp only [subnAux, Prod.mk.injEq] at h
    exact h.1.symm
  | succ fuel ih =>
    intro s out h
    rcases hr : Rx.run rx s [] with _ | ⟨p, tl⟩
    · rcases s with _ | ⟨c, cs⟩
      · simp only [subnAux, hr, Prod.mk.injEq] at h
        exact h.1.symm
      · rcases hv : subnAux rx items fuel cs with ⟨o2, n2⟩
        simp only [subnAux, hr, hv, Prod.mk.injEq] at h
        obtain ⟨h1, h2⟩ := h
        rw [h2] at hv
        rw [ih cs o2 hv] at h1
        exact h1.symm
    · by_cases hlt : p.1.length < s.length
      · rcases hv : subnAux rx items fuel p.1 with ⟨o2, n2⟩
        simp only [subnAux, hr, hv, if_pos hlt, Prod.mk.injEq] at h
        obtain ⟨-, h2⟩ := h
        omega
      · rcases s with _ | ⟨c, cs⟩
        · simp only [subnAux, hr, if_neg hlt, Prod.mk.injEq] at h
          obtain ⟨-, h2⟩ := h
          omega
        · rcases hv : subnAux rx items fuel cs with ⟨o2, n2⟩
          simp only [subnAux, hr, hv, if_neg hlt, Prod.mk.injEq] at h
          obtain ⟨-, h2⟩ := h
          omega

/-- Helper: a zero count makes the whole scan result the identity. -/
theorem subn_eq_of_count_zero (rx : Rx) (items : List TItem) (t : List Char)
    (h : (subn rx items t).2 = 0) : subn rx items t = (t, 0) := by
  rcases hv : subn rx items t with ⟨o, n⟩
  rw [hv] at h
  have hn : n = 0 := h
  subst hn
  have ho : o = t := subnAux_zero rx items (t.length + 1) t o hv
  subst ho
  rfl

/-- C5 amended: a run returns a transformed text exactly when every rule
compiles, meaning its pattern parses and its template passes the escape
and group reference checks; one failing rule makes the whole run return
no text at all, however late in the list it sits and whatever the source
text, so a run is all or nothing. -/
theorem run_succeeds_iff_rules_compile (rules : List Rule) (s : List Char) :
    ((∀ r ∈ rules, ∃ cr, compileRule r = Except.ok cr) →
      ∃ res, applyRules rules s = Except.ok res)
    ∧ ((∃ r ∈ rules, ∀ cr, compileRule r ≠ Except.ok cr) →
      ∀ res, applyRules rules s ≠ Except.ok res) := by
  induction rules generalizing s with
  | nil =>
    constructor
    · intro _
      exact ⟨(s, []), rfl⟩
    · rintro ⟨r, hr, -⟩ res h
      exact absurd hr (by simp)
  | cons r rs ih =>
    constructor
    · intro hall
      obtain ⟨cr, hcr⟩ := hall r (by simp)
      rcases cr with ⟨rx, items⟩
      rcases hs : subn rx items s with ⟨s1, n⟩
      obtain ⟨res2, h2⟩ := (ih s1).1 (fun r2 hr2 => hall r2 (by simp [hr2]))
      rcases res2 with ⟨out, ns⟩
      exact ⟨(out, n :: ns), by simp [applyRules, hcr, hs, h2]⟩
    · rintro ⟨r0, hr0, hfail⟩ res h
      rcases List.mem_cons.mp hr0 with rfl | hmem
      · rcases hcr : compileRule r0 with e | cr
        · simp only [applyRules, hcr] at h
          exact Except.noConfusion h
        · exact hfail cr hcr
      · rcases hcr : compileRule r with e | ⟨rx, items⟩
        · simp only [applyRules, hcr] at h
          exact Except.noConfusion h
        · rcases hs : subn rx items s with ⟨s1, n⟩
          rcases ha : applyRules rs s1 with e2 | res2
          · simp only [applyRules, hcr, hs, ha] at h
            exact Except.noConfusion h
          · exact (ih s1).2 ⟨r0, hmem, hfail⟩ res2 ha

theorem run_succeeds_iff_rules_compile_witness :
    ∃ res, applyRules [okRule] ("a".data) = Except.ok res :=
  (run_succeeds_iff_rules_compile [okRule] ("a".data)).1 (by
    intro r hr
    have h : r = okRule := by simpa using hr
    subst h
    exact ⟨(Rx.seq (Rx.ch 'a') Rx.eps, [TItem.lit 'b']), rfl⟩)

/-- C6 amended: when no rule of the set matches anywhere in the text the
first application produced, a second application returns that text
unchanged and a report of zeros, so applying the set twice equals
applying it once.  The counterexample above forces strengthening the
hypothesis from the pattern not matching its own replacement string to
the pattern not matching the once transformed text. -/
theorem second_application_noop (rules : List Rule) :
    ∀ (s out : List Char) (rep : List Nat),
      applyRules rules s = Except.ok (out, rep) →
      (∀ r ∈ rules, ∀ cr : Rx × List TItem, compileRule r = Except.ok cr →
        (subn cr.1 cr.2 out).2 = 0) →
      applyRules rules out = Except.ok (out, rules.map fun _ => 0) := by
  induction rules with
  | nil =>
    intro s out rep h h2
    rfl
  | cons r rs ih =>
    intro s out rep h h2
    rcases hc : compileRule r with e | ⟨rx, items⟩
    · simp only [applyRules, hc] at h
      exact Except.noConfusion h
    · rcases hs : subn rx items s with ⟨s1, n⟩
      rcases ha : applyRules rs s1 with e2 | ⟨out2, ns⟩
      · simp only [applyRules, hc, hs, ha] at h
        exact Except.noConfusion h
      · simp only [applyRules, hc, hs, ha, Except.ok.injEq, Prod.mk.injEq] at h
        obtain ⟨rfl, rfl⟩ := h
        have hz : (subn rx items out2).2 = 0 := h2 r (by simp) (rx, items) hc
        have hsz : subn rx items out2 = (out2, 0) :=
          subn_eq_of_count_zero rx items out2 hz
        have hrec : applyRules rs out2 = Except.ok (out2, rs.map fun _ => 0) :=
          ih s1 out2 ns ha (fun r2 hr2 cr hcr => h2 r2 (by simp [hr2]) cr hcr)
        simp only [applyRules, hc, hsz, hrec, List.map_cons]

theorem second_application_noop_witness :
    applyRules [okRule] ("b".data) =
      Except.ok (("b".data), [okRule].map fun _ => 0) :=
  second_application_noop [okRule] ("a".data) ("b".data) [1] rfl (by
    intro r hr cr hcr
    have h : r = okRule := by simpa using hr
    subst h
    have h2 : Except.ok ((Rx.seq (Rx.ch 'a') Rx.eps : Rx),
        ([TItem.lit 'b'] : List TItem)) = Except.ok cr := hcr
    injection h2 with h3
    subst h3
    rfl)

/-- Modelled from the spec: compilation of a literal matcher.  The rule
set of the script is written with metacharacters escaped by hand and
carries no per rule literal flag, so the escaping step the specification
describes is modelled here: every character of the metacharacter list of
the specification receives a backslash, every other character stands
alone. -/
def reEscape : List Char → List Char
  | [] => []
  | c :: cs => (if isMeta c then [Char.ofNat 92, c] else [c]) ++ reEscape cs

/-- The regex that matches one literal character after the other. -/
def litRx (l : List Char) : Rx :=
  l.foldr (fun c acc => Rx.seq (Rx.ch c) acc) Rx.eps

theorem litRx_cons (c : Char) (cs : List Char) :
    litRx (c :: cs) = Rx.seq (Rx.ch c) (litRx cs) := rfl

/-- Boolean prefix test used by the specification side definition. -/
def isPref : List Char → List Char → Bool
  | [], _ => true
  | _ :: _, [] => false
  | c :: cs, a :: as => c == a && isPref cs as

/-- Exact substring replacement, written after the specification words
for literal matchers: scan the text left to right, replace each
occurrence of the literal and continue after it, otherwise keep one
character and move on. -/
def specLitAux (l rep : List Char) : Nat → List Char → List Char × Nat
  | 0, s => (s, 0)
  | _ + 1, [] => ([], 0)
  | fuel + 1, c :: cs =>
    if isPref l (c :: cs) then
      match specLitAux l rep fuel ((c :: cs).drop l.length) with
      | (out, n) => (rep ++ out, n + 1)
    else
      match specLitAux l rep fuel cs with
      | (out, n) => (c :: out, n)

/-- Entry point of the specification side replacement. -/
def specLiteralReplace (l rep s : List Char) : List Char × Nat :=
  specLitAux l rep (s.length + 1) s

theorem rxSize_litRx (l : List Char) : rxSize (litRx l) = 2 * l.length + 1 := by
  induction l with
  | nil => rfl
  | cons c cs ih =>
    show rxSize (Rx.seq (Rx.ch c) (litRx cs)) = 2 * (c :: cs).length + 1
    simp only [rxSize, ih, List.length_cons]
    omega

theorem runR_litRx (l : List Char) :
    ∀ (fuel : Nat), l.length < fuel → ∀ (s : List Char) (k : Caps),
      runR fuel (litRx l) s k =
        if isPref l s then [(s.drop l.length, k)] else [] := by
  induction l with
  | nil =>
    intro fuel hf s k
    obtain ⟨f, rfl⟩ : ∃ f, fuel = f + 1 := ⟨fuel - 1, by omega⟩
    simp [runR, litRx, isPref]
  | cons c cs ih =>
    intro fuel hf s k
    obtain ⟨f, rfl⟩ : ∃ f, fuel = f + 1 := ⟨fuel - 1, by omega⟩
    have hf2 : cs.length < f := by
      simp only [List.length_cons] at hf
      omega
    obtain ⟨f2, rfl⟩ : ∃ f2, f = f2 + 1 := ⟨f - 1, by omega⟩
    rw [litRx_cons]
    have hseq : ∀ (s : List Char),
        runR (f2 + 1 + 1) (Rx.seq (Rx.ch c) (litRx cs)) s k =
          (runR (f2 + 1) (Rx.ch c) s k).flatMap
            (fun p => runR (f2 + 1) (litRx cs) p.1 p.2) := fun _ => rfl
    rcases s with _ | ⟨a, as⟩
    · rw [hseq]
      have hch : runR (f2 + 1) (Rx.ch c) [] k = [] := rfl
      rw [hch]
      simp [isPref]
    · by_cases hac : a = c
      · subst hac
        rw [hseq]
        have hch : runR (f2 + 1) (Rx.ch a) (a :: as) k = [(as, k)] := by
          simp [runR]
        rw [hch]
        have hih := ih (f2 + 1) (by omega) as k
        simp [hih, isPref, List.drop_succ_cons]
      · rw [hseq]
        have hch : runR (f2 + 1) (Rx.ch c) (a :: as) k = [] := by
          simp [runR, hac]
        rw [hch]
        have hca : ¬ (c = a) := fun h => hac h.symm
        simp [isPref, hca]

theorem run_litRx (l s : List Char) (k : Caps) :
    Rx.run (litRx l) s k = if isPref l s then [(s.drop l.length, k)] else [] := by
  have h1 : rxSize (litRx l) = 2 * l.length + 1 := rxSize_litRx l
  have h2 : l.length < (rxSize (litRx l) + 1) * (s.length + 1) := by
    rw [h1]
    have h3 : (2 * l.length + 1 + 1) * 1 ≤ (2 * l.length + 1 + 1) * (s.length + 1) :=
      Nat.mul_le_mul_left _ (by omega)
    omega
  exact runR_litRx l _ h2 s k

theorem patEscAtom_meta (c : Char) (h : isMeta c = true) :
    patEscAtom c = .ok (.ch c) := by
  simp only [isMeta, Bool.or_eq_true, decide_eq_true_eq] at h
  rcases h with rfl | rfl | rfl | rfl | rfl | rfl | rfl | rfl | rfl | rfl |
    rfl | rfl | rfl | rfl <;> rfl

theorem not_meta_facts (c : Char) (hm : isMeta c = false) :
    c ≠ '.' ∧ c ≠ '(' ∧ c ≠ ')' ∧ c ≠ Char.ofNat 92 ∧
      quantChar c = false ∧ unsupChar c = false := by
  simp only [isMeta, Bool.or_eq_false_iff, decide_eq_false_iff_not] at hm
  obtain ⟨h1, h2, h3, h4, h5, h6, h7, h8, h9, h10, h11, h12, h13, h14⟩ := hm
  refine ⟨h1, h5, h6, h14, ?_, ?_⟩
  · simp [quantChar, h2, h3, h4]
  · simp [unsupChar, h11, h12, h13, h7, h8, h9, h10]

theorem splitQuant_reEscape (l : List Char) :
    splitQuant (reEscape l) = (none, reEscape l) := by
  cases l with
  | nil => rfl
  | cons c cs =>
    by_cases hm : isMeta c = true
    · have hre : reEscape (c :: cs) = Char.ofNat 92 :: c :: reEscape cs := by
        simp [reEscape, hm]
      rw [hre]
      rfl
    · have hm2 : isMeta c = false := by simpa using hm
      obtain ⟨-, -, -, -, hq, -⟩ := not_meta_facts c hm2
      have hre : reEscape (c :: cs) = c :: reEscape cs := by
        simp [reEscape, hm2]
      rw [hre]
      simp [splitQuant, hq]

theorem pSeq_reEscape (l : List Char) :
    ∀ (fuel g : Nat), l.length < fuel →
      pSeq fuel g (reEscape l) = Except.ok (litRx l, g, []) := by
  induction l with
  | nil =>
    intro fuel g hf
    obtain ⟨f, rfl⟩ : ∃ f, fuel = f + 1 := ⟨fuel - 1, by omega⟩
    rfl
  | cons c cs ih =>
    intro fuel g hf
    obtain ⟨f, rfl⟩ : ∃ f, fuel = f + 1 := ⟨fuel - 1, by omega⟩
    have hf2 : cs.length < f := by
      simp only [List.length_cons] at hf
      omega
    have hsq : splitQuant (reEscape cs) = (none, reEscape cs) :=
      splitQuant_reEscape cs
    by_cases hm : isMeta c = true
    · have hre : reEscape (c :: cs) = Char.ofNat 92 :: c :: reEscape cs := by
        simp [reEscape, hm]
      have hpa : pAtom (Char.ofNat 92) (c :: reEscape cs) =
          Except.ok (Rx.ch c, reEscape cs) := by
        simp [pAtom, patEscAtom_meta c hm]
      rw [hre]
      simp only [pSeq, hpa, hsq, litRx_cons, ih f g hf2]
      rw [if_neg (show ¬(Char.ofNat 92 = ')') from by decide),
        if_neg (show ¬(Char.ofNat 92 = '(') from by decide)]
    · have hm2 : isMeta c = false := by simpa using hm
      obtain ⟨h1, h5, h6, h14, hq, hu⟩ := not_meta_facts c hm2
      have hre : reEscape (c :: cs) = c :: reEscape cs := by
        simp [reEscape, hm2]
      have hpa : pAtom c (reEscape cs) = Except.ok (Rx.ch c, reEscape cs) := by
        simp [pAtom, h14, hq, hu, h1]
      rw [hre]
      simp only [pSeq, if_neg h6, if_neg h5, hpa, hsq, litRx_cons, ih f g hf2]

theorem reEscape_len (l : List Char) : l.length ≤ (reEscape l).length := by
  induction l with
  | nil => simp [reEscape]
  | cons c cs ih =>
    by_cases hm : isMeta c = true
    · simp only [reEscape, hm, if_true, List.length_append, List.length_cons]
      simp
      omega
    · have hm2 : isMeta c = false := by simpa using hm
      simp only [reEscape, hm2, List.length_append, List.length_cons]
      simp
      omega

theorem pCompile_reEscape (l : List Char) :
    pCompile (reEscape l) = Except.ok (litRx l, 0) := by
  have h := pSeq_reEscape l ((reEscape l).length + 1) 0
    (by have := reEscape_len l; omega)
  simp only [pCompile, h]

/-- Helper: the scan with the compiled escaped literal steps in lockstep
with the specification side exact substring replacement. -/
theorem subnAux_litRx (l : List Char) (items : List TItem) (hl : l ≠ []) :
    ∀ (fuel : Nat) (s : List Char),
      subnAux (litRx l) items fuel s = specLitAux l (substT items []) fuel s := by
  intro fuel
  induction fuel with
  | zero => intro s; rfl
  | succ fuel ih =>
    intro s
    rcases s with _ | ⟨c, cs⟩
    · have hr : Rx.run (litRx l) [] [] = [] := by
        rw [run_litRx]
        rcases l with _ | ⟨x, xs⟩
        · exact absurd rfl hl
        · rfl
      simp [subnAux, hr, specLitAux]
    · by_cases hp : isPref l (c :: cs) = true
      · have hr : Rx.run (litRx l) (c :: cs) [] =
            [((c :: cs).drop l.length, [])] := by
          rw [run_litRx, if_pos hp]
        have hl1 : 0 < l.length := List.length_pos.mpr hl
        have hlt : ((c :: cs).drop l.length).length < (c :: cs).length := by
          rw [List.length_drop]
          simp only [List.length_cons]
          omega
        have hih := ih ((c :: cs).drop l.length)
        simp only [subnAux, hr, if_pos hlt, hih, specLitAux, if_pos hp]
      · have hp2 : isPref l (c :: cs) = false := by simpa using hp
        have hr : Rx.run (litRx l) (c :: cs) [] = [] := by
          rw [run_litRx]
          simp [hp2]
        have hih := ih cs
        simp only [subnAux, hr, hih, specLitAux, hp2]
        simp

/-- Helper: characterization of rule compilation once the pattern is
known to compile. -/
theorem compileRule_mk (p t : List Char) (rx0 : Rx) (g : Nat)
    (hp : pCompile p = Except.ok (rx0, g)) :
    compileRule ⟨p, t⟩ =
      match parseTemplate g t with
      | .error e => Except.error e
      | .ok its => Except.ok (rx0, its) := by
  simp only [compileRule, hp]

/-- C4: a literal matcher compiled through the modelled escaping step
behaves as exact substring replacement on every text: the scan with the
compiled rule equals the specification side replacement of every
occurrence of the literal, so regex metacharacters inside the literal
never act as regex constructs. -/
theorem literal_matchers_exact_substring (lit tmpl s : List Char) (rx : Rx)
    (items : List TItem) (hl : lit ≠ [])
    (hc : compileRule ⟨reEscape lit, tmpl⟩ = Except.ok (rx, items)) :
    subn rx items s = specLiteralReplace lit (substT items []) s := by
  rw [compileRule_mk (reEscape lit) tmpl (litRx lit) 0 (pCompile_reEscape lit)] at hc
  rcases hpt : parseTemplate 0 tmpl with e | its
  · rw [hpt] at hc
    exact absurd hc (by simp)
  · rw [hpt] at hc
    simp only [Except.ok.injEq, Prod.mk.injEq] at hc
    obtain ⟨rfl, rfl⟩ := hc
    exact subnAux_litRx lit its hl (s.length + 1) s

theorem literal_matchers_exact_substring_witness :
    subn (litRx ("(a+)".data)) [TItem.lit 'Z'] ("x(a+)y(a+)".data) =
      specLiteralReplace ("(a+)".data) (substT [TItem.lit 'Z'] [])
        ("x(a+)y(a+)".data) :=
  literal_matchers_exact_substring ("(a+)".data) ("Z".data)
    ("x(a+)y(a+)".data) (litRx ("(a+)".data)) [TItem.lit 'Z']
    (by decide) rfl
